import Mathlib

/-!
Verification of the program-registry updater (`scripts/update_program_registry.py`).

The script has two core functions:

* `extract_programs_from_db` — streams event rows, parses each as a
  transaction record, and folds per-program statistics into an accumulator
  (a `defaultdict` keyed by program id);
* `update_registry` — loads the persisted registry JSON, overwrites counts
  of known programs, appends newly seen programs to `pending_review`
  (sorting the list by count descending when at least one new program was
  found), recomputes metadata, and persists.

The embedding below mirrors the Python line by line: the accumulator is an
insertion-ordered association list (Python dicts preserve insertion order),
parse failures are `none` rows (the `try`/`except` skips the whole record),
Python `set`s become `Finset String`, the `sys.exit(1)` on a missing
registry file becomes `Except.error 1`, and the stable descending sort of
`pending_review` is a stable insertion sort (any stable sort by the same
key yields the same list).
-/

set_option maxHeartbeats 1000000

namespace ProgramRegistry

/-- One parsed transaction record, as read from a `mint_event` row.
Field defaults (`source`/`type` to "UNKNOWN", `signature` to "",
`timestamp` to 0) are applied at parse time, so fields here are total.
Each instruction optionally carries a `programId`. -/
structure TxRecord where
  source : String
  txType : String
  signature : String
  timestamp : Int
  instructions : List (Option String)
  deriving DecidableEq

/-- Per-program statistics accumulated by `extract_programs_from_db`. -/
structure ProgramStats where
  count : Nat
  sources : Finset String
  types : Finset String
  sample_tx : Option String
  first_seen : Option Int
  last_seen : Option Int
  deriving DecidableEq

/-- Default value produced by the `defaultdict` on first access. -/
def initStats : ProgramStats :=
  { count := 0, sources := ∅, types := ∅
    sample_tx := none, first_seen := none, last_seen := none }

/-- The per-program update applied for one record that references the
program (lines 73–81 of the script).  The `sample_tx` / `first_seen` /
`last_seen` guards mirror Python truthiness: `not x` is true for `None`,
`""` and `0`. -/
def updateStats (tx : TxRecord) (s : ProgramStats) : ProgramStats :=
  { count := s.count + 1
    sources := insert tx.source s.sources
    types := insert tx.txType s.types
    sample_tx :=
      match s.sample_tx with
      | none => some tx.signature
      | some sig => if sig = "" then some tx.signature else some sig
    first_seen :=
      match s.first_seen with
      | none => some tx.timestamp
      | some f => if f = 0 ∨ tx.timestamp < f then some tx.timestamp else some f
    last_seen :=
      match s.last_seen with
      | none => some tx.timestamp
      | some l => if l = 0 ∨ l < tx.timestamp then some tx.timestamp else some l }

/-- The set of distinct program ids referenced by a record's instructions
(lines 65–68: `programs = set(); ... programs.add(ix['programId'])`),
as a duplicate-free list. -/
def recordPrograms (tx : TxRecord) : List String :=
  (tx.instructions.filterMap id).dedup

/-- `program_stats[pid]` followed by an in-place update: update the first
(unique) binding of `pid`, or append a freshly default-constructed one. -/
def assocUpdate : List (String × ProgramStats) → String →
    (ProgramStats → ProgramStats) → List (String × ProgramStats)
  | [], pid, f => [(pid, f initStats)]
  | e :: rest, pid, f =>
    if e.1 = pid then (e.1, f e.2) :: rest else e :: assocUpdate rest pid f

/-- Fold one successfully parsed record into the accumulator
(lines 71–81: `for pid in programs: ...`). -/
def processRecord (acc : List (String × ProgramStats)) (tx : TxRecord) :
    List (String × ProgramStats) :=
  (recordPrograms tx).foldl (fun a pid => assocUpdate a pid (updateStats tx)) acc

/-- Process one raw row in the well-typed data model: `none` stands for a
row that failed before the update loop and is skipped whole (the
`except: pass` on lines 87–88).  This models parse-stage failures only;
failures raised inside the update loop itself — which the same `except`
also swallows, after mutations already happened — are modelled separately
by `processRawRow` below. -/
def processRow (acc : List (String × ProgramStats)) :
    Option TxRecord → List (String × ProgramStats)
  | none => acc
  | some tx => processRecord acc tx

/-- Aggregate a stream of rows (lines 56–88 of the script). -/
def extract_programs_from_db (rows : List (Option TxRecord)) :
    List (String × ProgramStats) :=
  rows.foldl processRow []

/-- Look a program id up in the accumulator; absent ids read as the
default (`defaultdict` semantics). -/
def lookupStats : List (String × ProgramStats) → String → ProgramStats
  | [], _ => initStats
  | e :: rest, pid => if e.1 = pid then e.2 else lookupStats rest pid

theorem lookupStats_assocUpdate (acc : List (String × ProgramStats))
    (q pid : String) (f : ProgramStats → ProgramStats) :
    lookupStats (assocUpdate acc q f) pid =
      if pid = q then f (lookupStats acc pid) else lookupStats acc pid := by
  induction acc with
  | nil =>
    simp only [assocUpdate, lookupStats]
    by_cases h : pid = q
    · subst h; simp
    · rw [if_neg (fun hq => h hq.symm), if_neg h]
  | cons e rest ih =>
    by_cases he : e.1 = q
    · simp only [assocUpdate, if_pos he, lookupStats]
      by_cases hp : pid = q
      · subst hp; simp [he]
      · have hne : ¬ e.1 = pid := fun h => hp (h.symm.trans he)
        rw [if_neg hne, if_neg hp, if_neg hne]
    · simp only [assocUpdate, if_neg he, lookupStats, ih]
      by_cases hp : e.1 = pid
      · have hpq : ¬ pid = q := fun h => he (hp.trans h)
        rw [if_pos hp, if_pos hp, if_neg hpq]
      · rw [if_neg hp, if_neg hp]

theorem lookupStats_foldl_assocUpdate (l : List String) (hl : l.Nodup)
    (acc : List (String × ProgramStats)) (pid : String)
    (f : ProgramStats → ProgramStats) :
    lookupStats (l.foldl (fun a q => assocUpdate a q f) acc) pid =
      if pid ∈ l then f (lookupStats acc pid) else lookupStats acc pid := by
  induction l generalizing acc with
  | nil => simp
  | cons q rest ih =>
    have hq : q ∉ rest := (List.nodup_cons.mp hl).1
    have hrest : rest.Nodup := (List.nodup_cons.mp hl).2
    by_cases hp : pid = q
    · subst hp
      simp only [List.foldl_cons, ih hrest, lookupStats_assocUpdate]
      simp [hq]
    · simp only [List.foldl_cons, ih hrest, lookupStats_assocUpdate]
      simp [hp, List.mem_cons]

theorem lookupStats_processRecord (acc : List (String × ProgramStats))
    (tx : TxRecord) (pid : String) :
    lookupStats (processRecord acc tx) pid =
      if pid ∈ recordPrograms tx then updateStats tx (lookupStats acc pid)
      else lookupStats acc pid :=
  lookupStats_foldl_assocUpdate _ (List.nodup_dedup _) acc pid _

/-- The evolution of a single program's statistics across one row. -/
def stepRow (pid : String) (s : ProgramStats) : Option TxRecord → ProgramStats
  | none => s
  | some tx => if pid ∈ recordPrograms tx then updateStats tx s else s

theorem lookupStats_foldl_rows (rows : List (Option TxRecord)) (pid : String) :
    ∀ acc, lookupStats (rows.foldl processRow acc) pid =
      rows.foldl (stepRow pid) (lookupStats acc pid) := by
  induction rows with
  | nil => intro acc; rfl
  | cons r rest ih =>
    intro acc
    cases r with
    | none => simpa [processRow, stepRow] using ih acc
    | some tx =>
      simp only [List.foldl_cons, processRow, stepRow]
      rw [ih, lookupStats_processRecord]

theorem lookupStats_extract (rows : List (Option TxRecord)) (pid : String) :
    lookupStats (extract_programs_from_db rows) pid =
      rows.foldl (stepRow pid) initStats :=
  lookupStats_foldl_rows rows pid []

/-- Projection of the statistics to the order-insensitive fields. -/
def projCore (s : ProgramStats) : Nat × Finset String × Finset String :=
  (s.count, s.sources, s.types)

/-- Evolution of the order-insensitive fields across one row. -/
def stepCore (pid : String) (p : Nat × Finset String × Finset String) :
    Option TxRecord → Nat × Finset String × Finset String
  | none => p
  | some tx =>
    if pid ∈ recordPrograms tx then
      (p.1 + 1, insert tx.source p.2.1, insert tx.txType p.2.2)
    else p

theorem projCore_stepRow (pid : String) (s : ProgramStats) (r : Option TxRecord) :
    projCore (stepRow pid s r) = stepCore pid (projCore s) r := by
  cases r with
  | none => rfl
  | some tx =>
    by_cases h : pid ∈ recordPrograms tx <;>
      simp [stepRow, stepCore, h, updateStats, projCore]

theorem projCore_foldl (pid : String) (rows : List (Option TxRecord)) :
    ∀ s, projCore (rows.foldl (stepRow pid) s) =
      rows.foldl (stepCore pid) (projCore s) := by
  induction rows with
  | nil => intro s; rfl
  | cons r rest ih =>
    intro s
    simp only [List.foldl_cons]
    rw [ih, projCore_stepRow]

theorem stepCore_rcomm (pid : String) (p : Nat × Finset String × Finset String)
    (r1 r2 : Option TxRecord) :
    stepCore pid (stepCore pid p r1) r2 = stepCore pid (stepCore pid p r2) r1 := by
  cases r1 with
  | none => rfl
  | some tx1 =>
    cases r2 with
    | none => rfl
    | some tx2 =>
      by_cases h1 : pid ∈ recordPrograms tx1 <;>
        by_cases h2 : pid ∈ recordPrograms tx2 <;>
          simp [stepCore, h1, h2, Finset.Insert.comm]

theorem foldl_eq_of_perm {α β : Type} (f : β → α → β)
    (hc : ∀ b x y, f (f b x) y = f (f b y) x) {l1 l2 : List α}
    (hp : l1.Perm l2) : ∀ b, l1.foldl f b = l2.foldl f b := by
  induction hp with
  | nil => intro b; rfl
  | cons x _ ih => intro b; simp only [List.foldl_cons]; exact ih _
  | swap x y l => intro b; simp only [List.foldl_cons]; rw [hc]
  | trans _ _ ih1 ih2 => intro b; rw [ih1, ih2]

/-- Predicate: both timestamp bounds are set and ordered. -/
def hasTimeBounds (s : ProgramStats) : Prop :=
  ∃ f l, s.first_seen = some f ∧ s.last_seen = some l ∧ f ≤ l

theorem updateStats_bounds_init (tx : TxRecord) :
    hasTimeBounds (updateStats tx initStats) :=
  ⟨tx.timestamp, tx.timestamp, rfl, rfl, le_refl _⟩

theorem updateStats_bounds (tx : TxRecord) (s : ProgramStats)
    (h : hasTimeBounds s) : hasTimeBounds (updateStats tx s) := by
  rcases h with ⟨f, l, hf, hl, hfl⟩
  by_cases h1 : f = 0 ∨ tx.timestamp < f
  · by_cases h2 : l = 0 ∨ l < tx.timestamp
    · exact ⟨tx.timestamp, tx.timestamp, by simp [updateStats, hf, h1],
        by simp [updateStats, hl, h2], le_refl _⟩
    · exact ⟨tx.timestamp, l, by simp [updateStats, hf, h1],
        by simp [updateStats, hl, h2], by omega⟩
  · by_cases h2 : l = 0 ∨ l < tx.timestamp
    · exact ⟨f, tx.timestamp, by simp [updateStats, hf, h1],
        by simp [updateStats, hl, h2], by omega⟩
    · exact ⟨f, l, by simp [updateStats, hf, h1],
        by simp [updateStats, hl, h2], hfl⟩

/-- Invariant: every entry of the accumulator has both time bounds set. -/
def entriesOK (acc : List (String × ProgramStats)) : Prop :=
  ∀ e ∈ acc, hasTimeBounds e.2

theorem entriesOK_assocUpdate (acc : List (String × ProgramStats))
    (q : String) (tx : TxRecord) (h : entriesOK acc) :
    entriesOK (assocUpdate acc q (updateStats tx)) := by
  induction acc with
  | nil =>
    intro e he
    simp only [assocUpdate, List.mem_singleton] at he
    subst he
    exact updateStats_bounds_init tx
  | cons hd rest ih =>
    intro e he
    by_cases hq : hd.1 = q
    · simp only [assocUpdate, if_pos hq] at he
      rcases List.mem_cons.mp he with h1 | h2
      · subst h1; exact updateStats_bounds tx hd.2 (h hd (List.mem_cons_self _ _))
      · exact h e (List.mem_cons_of_mem _ h2)
    · simp only [assocUpdate, if_neg hq] at he
      rcases List.mem_cons.mp he with h1 | h2
      · rw [h1]; exact h hd (List.mem_cons_self _ _)
      · exact ih (fun e' he' => h e' (List.mem_cons_of_mem _ he')) e h2

theorem entriesOK_processRow (acc : List (String × ProgramStats))
    (r : Option TxRecord) (h : entriesOK acc) : entriesOK (processRow acc r) := by
  cases r with
  | none => exact h
  | some tx =>
    show entriesOK (processRecord acc tx)
    rw [processRecord]
    generalize recordPrograms tx = l
    induction l generalizing acc with
    | nil => exact h
    | cons q rest ih =>
      exact ih (assocUpdate acc q (updateStats tx)) (entriesOK_assocUpdate acc q tx h)

theorem entriesOK_extract (rows : List (Option TxRecord)) :
    entriesOK (extract_programs_from_db rows) := by
  rw [extract_programs_from_db]
  have : entriesOK ([] : List (String × ProgramStats)) := fun e he => by simp at he
  generalize ([] : List (String × ProgramStats)) = acc at this ⊢
  induction rows generalizing acc with
  | nil => exact this
  | cons r rest ih =>
    exact ih (processRow acc r) (entriesOK_processRow acc r this)

theorem lookupStats_mem (acc : List (String × ProgramStats)) (pid : String)
    (h : pid ∈ acc.map Prod.fst) : ∃ e ∈ acc, lookupStats acc pid = e.2 := by
  induction acc with
  | nil => simp at h
  | cons hd rest ih =>
    by_cases hq : hd.1 = pid
    · exact ⟨hd, List.mem_cons_self _ _, by simp [lookupStats, hq]⟩
    · have hrest : pid ∈ rest.map Prod.fst := by
        rcases List.mem_map.mp h with ⟨e, he, hpe⟩
        rcases List.mem_cons.mp he with h1 | h2
        · exact absurd (h1 ▸ hpe) hq
        · exact List.mem_map.mpr ⟨e, h2, hpe⟩
      rcases ih hrest with ⟨e, he, hl⟩
      exact ⟨e, List.mem_cons_of_mem _ he, by simp [lookupStats, hq, hl]⟩

/-!
Refined failure semantics of the row loop.  The `try`/`except` of
lines 57–88 wraps not only `json.loads` and the field extraction but also
the per-program mutation loop (lines 71–81), and the `defaultdict` is
mutated in place with no rollback.  A row can therefore be "skipped" only
after part of its update has already happened.  The refinement below adds
the earliest in-loop failure point: `stats['sources'].add(source)` raising
`TypeError` for an unhashable `source` (a JSON object or array), which
executes only after `stats['count'] += 1` already ran.
-/

/-- One raw stored row, refined with the failure points of the source:
`parseFail` is any row that raises before the update loop starts
(non-JSON text, wrong shape, unhashable `programId` during set
construction, …) — those leave the accumulator untouched; `ok` is a fully
well-typed record; `badSource` is a valid-JSON row whose instructions and
program ids are fine but whose `source` value is unhashable, so the
update loop raises at `sources.add` right after the first
`count += 1`. -/
inductive RawRow where
  | parseFail : RawRow
  | ok : TxRecord → RawRow
  | badSource : List (Option String) → RawRow
  deriving DecidableEq

/-- `stats['count'] += 1` alone (line 73) — the prefix of the per-program
update that has already executed when `sources.add(source)` raises on
line 74. -/
def incrementCountOnly (s : ProgramStats) : ProgramStats :=
  { s with count := s.count + 1 }

/-- Process one refined row.  For `badSource`, the set of program ids is
built successfully (lines 65–68); the loop then default-creates the first
program's entry and increments its count (lines 72–73) before
`sources.add` raises and the blanket `except` abandons the record —
leaving the increment in place.  (With a single referenced program the
unspecified set-iteration order is immaterial.) -/
def processRawRow (acc : List (String × ProgramStats)) :
    RawRow → List (String × ProgramStats)
  | RawRow.parseFail => acc
  | RawRow.ok tx => processRecord acc tx
  | RawRow.badSource ins =>
    match (ins.filterMap id).dedup with
    | [] => acc
    | pid :: _ => assocUpdate acc pid incrementCountOnly

/-- Aggregation over refined rows (lines 56–88). -/
def extractRaw (rows : List RawRow) : List (String × ProgramStats) :=
  rows.foldl processRawRow []

/-- On streams without in-loop failures the refined semantics agrees with
the well-typed model `extract_programs_from_db`. -/
theorem extractRaw_agrees (rows : List (Option TxRecord)) :
    extractRaw (rows.map (fun r =>
        match r with
        | none => RawRow.parseFail
        | some tx => RawRow.ok tx)) =
      extract_programs_from_db rows := by
  rw [extractRaw, extract_programs_from_db, List.foldl_map]
  have hfun : (fun (acc : List (String × ProgramStats)) r =>
      processRawRow acc (match r with
        | none => RawRow.parseFail
        | some tx => RawRow.ok tx)) = processRow := by
    funext acc r
    cases r <;> rfl
  rw [hfun]

/-- C3 (amended): a row that fails before the per-program update loop —
invalid serialized content, wrong shape — is skipped atomically: the
accumulator is exactly as if the row were absent.  Failures raised inside
the update loop are not atomic (see the counterexample). -/
theorem parse_fail_atomic (l1 l2 : List RawRow) :
    extractRaw (l1 ++ RawRow.parseFail :: l2) = extractRaw (l1 ++ l2) := by
  simp [extractRaw, List.foldl_append, processRawRow]

def badSourceRow : RawRow := RawRow.badSource [some "P"]

/-- Counterexample to C3 as stated: a valid-JSON row whose `source` is
unhashable raises `TypeError` in `sources.add` only after `count += 1`
has executed; the blanket `except` skips the rest of the record but the
increment stays.  The aggregate therefore differs from the stream with
the failing row removed: program "P" is present with count 1 and empty
sources — a partial fold-in, refuting "on any per-record failure the
accumulator is unchanged". -/
theorem bad_source_not_atomic :
    extractRaw [badSourceRow] ≠ extractRaw [] ∧
      (lookupStats (extractRaw [badSourceRow]) "P").count = 1 ∧
      (lookupStats (extractRaw [badSourceRow]) "P").sources = ∅ :=
  ⟨by decide, by decide, by decide⟩

/-- C4: within one parsed record, each distinct program identifier
referenced by its instructions contributes exactly 1 to that program's
count, no matter how many instructions reference it. -/
theorem per_event_dedup (acc : List (String × ProgramStats)) (tx : TxRecord)
    (pid : String) (h : some pid ∈ tx.instructions) :
    (lookupStats (processRecord acc tx) pid).count =
      (lookupStats acc pid).count + 1 := by
  have hmem : pid ∈ recordPrograms tx := by
    simp only [recordPrograms, List.mem_dedup, List.mem_filterMap, id]
    exact ⟨some pid, h, rfl⟩
  rw [lookupStats_processRecord, if_pos hmem]
  rfl

def txTriple : TxRecord :=
  { source := "X", txType := "T", signature := "sig", timestamp := 5
    instructions := [some "P", some "P", some "P"] }

/-- Witness for C4: a record whose three instructions all reference `P`
increments `P`'s count by exactly 1. -/
theorem per_event_dedup_w :
    some "P" ∈ txTriple.instructions ∧
      (lookupStats (processRecord [] txTriple) "P").count =
        (lookupStats [] "P").count + 1 :=
  ⟨by decide, per_event_dedup [] txTriple "P" (by decide)⟩

/-- C2 (amended): aggregating any permutation of the row stream yields
identical `count`, `sources` and `types` for every program identifier.
(`sample_tx` is first-wins and `first_seen`/`last_seen` can be reset by the
zero-is-falsy guard, so those three fields are order-dependent.) -/
theorem agg_core_perm_invariant (l1 l2 : List (Option TxRecord))
    (hp : l1.Perm l2) (pid : String) :
    (lookupStats (extract_programs_from_db l1) pid).count =
        (lookupStats (extract_programs_from_db l2) pid).count ∧
      (lookupStats (extract_programs_from_db l1) pid).sources =
        (lookupStats (extract_programs_from_db l2) pid).sources ∧
      (lookupStats (extract_programs_from_db l1) pid).types =
        (lookupStats (extract_programs_from_db l2) pid).types := by
  have hproj : projCore (lookupStats (extract_programs_from_db l1) pid) =
      projCore (lookupStats (extract_programs_from_db l2) pid) := by
    rw [lookupStats_extract, lookupStats_extract, projCore_foldl, projCore_foldl]
    exact foldl_eq_of_perm _ (stepCore_rcomm pid) hp _
  refine ⟨?_, ?_, ?_⟩
  · exact congrArg Prod.fst hproj
  · exact congrArg (fun p => p.2.1) hproj
  · exact congrArg (fun p => p.2.2) hproj

def txSigA : TxRecord :=
  { source := "s", txType := "t", signature := "a", timestamp := 1
    instructions := [some "P"] }

def txSigB : TxRecord :=
  { source := "s", txType := "t", signature := "b", timestamp := 1
    instructions := [some "P"] }

/-- Counterexample to C2 as stated: swapping two valid records that carry
different signatures changes `sample_tx` (first-wins), so the full
`ProgramStats` record is not permutation-invariant. -/
theorem agg_perm_cex :
    ([some txSigA, some txSigB] : List (Option TxRecord)).Perm
        [some txSigB, some txSigA] ∧
      lookupStats (extract_programs_from_db [some txSigA, some txSigB]) "P" ≠
        lookupStats (extract_programs_from_db [some txSigB, some txSigA]) "P" :=
  ⟨List.Perm.swap (some txSigB) (some txSigA) [], by decide⟩

def txZero : TxRecord :=
  { source := "s", txType := "t", signature := "z", timestamp := 0
    instructions := [some "P"] }

/-- Counterexample to C5 as stated: a first sighting with timestamp exactly
0 does set `first_seen` (the guard `not None` is true), so the genuine zero
timestamp is recorded as the `first_seen` bound. -/
theorem first_seen_zero_cex :
    (lookupStats (extract_programs_from_db [some txZero]) "P").first_seen =
      some 0 := by decide

/-- C5 (amended): a first sighting with timestamp 0 does set `first_seen`
to 0, but the falsy guard conflates the stored 0 with "unset", so any
subsequent sighting of that program overwrites `first_seen` with its own
timestamp, losing the genuine zero bound. -/
theorem first_seen_zero_overwritten (s : ProgramStats) (tx : TxRecord)
    (h : s.first_seen = some 0) :
    (updateStats tx initStats).first_seen = some tx.timestamp ∧
      (updateStats tx s).first_seen = some tx.timestamp := by
  exact ⟨rfl, by simp [updateStats, h]⟩

def statsZero : ProgramStats :=
  { count := 1, sources := ∅, types := ∅, sample_tx := some "z"
    first_seen := some 0, last_seen := some 0 }

def txLater : TxRecord :=
  { source := "s", txType := "t", signature := "w", timestamp := 7
    instructions := [some "P"] }

/-- Witness for C5 (amended): with `first_seen = some 0`, a sighting at
timestamp 7 overwrites `first_seen` to 7. -/
theorem first_seen_zero_overwritten_w :
    statsZero.first_seen = some 0 ∧
      ((updateStats txLater initStats).first_seen = some txLater.timestamp ∧
        (updateStats txLater statsZero).first_seen = some txLater.timestamp) :=
  ⟨rfl, first_seen_zero_overwritten statsZero txLater rfl⟩

/-- C10: after processing any prefix of the row stream, every program
identifier present in the accumulator has both `first_seen` and
`last_seen` set, with `first_seen ≤ last_seen`. -/
theorem agg_time_bounds (rows : List (Option TxRecord)) (pid : String)
    (h : pid ∈ (extract_programs_from_db rows).map Prod.fst) :
    hasTimeBounds (lookupStats (extract_programs_from_db rows) pid) := by
  rcases lookupStats_mem _ _ h with ⟨e, he, hl⟩
  rw [hl]
  exact entriesOK_extract rows e he

def txBoundsW : TxRecord :=
  { source := "s", txType := "t", signature := "w", timestamp := 3
    instructions := [some "P"] }

/-- Witness for C10 at a concrete one-row stream. -/
theorem agg_time_bounds_w :
    "P" ∈ (extract_programs_from_db [some txBoundsW]).map Prod.fst ∧
      hasTimeBounds (lookupStats (extract_programs_from_db [some txBoundsW]) "P") :=
  ⟨by decide, agg_time_bounds [some txBoundsW] "P" (by decide)⟩

/-- Witness for C2 (amended) at a concrete two-row permutation. -/
theorem agg_core_perm_invariant_w :
    ([some txSigA, some txSigB] : List (Option TxRecord)).Perm
        [some txSigB, some txSigA] ∧
      ((lookupStats (extract_programs_from_db [some txSigA, some txSigB]) "P").count =
          (lookupStats (extract_programs_from_db [some txSigB, some txSigA]) "P").count ∧
        (lookupStats (extract_programs_from_db [some txSigA, some txSigB]) "P").sources =
          (lookupStats (extract_programs_from_db [some txSigB, some txSigA]) "P").sources ∧
        (lookupStats (extract_programs_from_db [some txSigA, some txSigB]) "P").types =
          (lookupStats (extract_programs_from_db [some txSigB, some txSigA]) "P").types) :=
  ⟨List.Perm.swap (some txSigB) (some txSigA) [],
    agg_core_perm_invariant _ _ (List.Perm.swap (some txSigB) (some txSigA) []) "P"⟩

/-! ## The registry reconciler (`update_registry`, lines 95–154) -/

/-- One entry of the registry's `pending_review` sequence. -/
structure PendingEntry where
  programId : String
  count : Nat
  sources : List String
  sample_tx : Option String
  solscan_url : String
  status : String
  detected_at : String
  deriving DecidableEq

/-- One curated entry of the registry's `programs` mapping: a `count`
field plus whatever other verified metadata the JSON object carries
(opaque to this script, which only ever touches `count`). -/
structure ProgramEntry where
  count : Nat
  meta : List (String × String)
  deriving DecidableEq

/-- The persisted registry JSON document.  `programs` is a JSON object
(insertion-ordered mapping), `pending_review` a JSON array. -/
structure Registry where
  programs : List (String × ProgramEntry)
  pending_review : List PendingEntry
  version : String
  last_updated : String
  total_programs : Nat
  verified_count : Nat
  pending_count : Nat
  deriving DecidableEq

/-- Deterministic URL built from the identifier (line 119). -/
def solscanUrl (pid : String) : String :=
  "https://solscan.io/account/" ++ pid

/-- Sorted insertion of a string into a sorted list. -/
def insertStr (a : String) : List String → List String
  | [] => [a]
  | b :: rest => if a ≤ b then a :: b :: rest else b :: insertStr a rest

/-- Insertion sort on strings (structurally recursive, so it computes). -/
def insertionSortStr : List String → List String
  | [] => []
  | a :: rest => insertStr a (insertionSortStr rest)

theorem insertStr_perm (a : String) (l : List String) :
    (insertStr a l).Perm (a :: l) := by
  induction l with
  | nil => exact List.Perm.refl _
  | cons b rest ih =>
    by_cases h : a ≤ b
    · simp only [insertStr, if_pos h]
      exact List.Perm.refl _
    · simp only [insertStr, if_neg h]
      exact (ih.cons b).trans (List.Perm.swap a b rest)

theorem insertionSortStr_perm (l : List String) :
    (insertionSortStr l).Perm l := by
  induction l with
  | nil => exact List.Perm.refl _
  | cons a rest ih =>
    exact (insertStr_perm a (insertionSortStr rest)).trans (ih.cons a)

theorem insertStr_sorted (a : String) (l : List String)
    (h : l.Sorted (· ≤ ·)) : (insertStr a l).Sorted (· ≤ ·) := by
  induction l with
  | nil => simp [insertStr, List.Sorted]
  | cons b rest ih =>
    rcases List.pairwise_cons.mp h with ⟨hb, hrest⟩
    by_cases hc : a ≤ b
    · simp only [insertStr, if_pos hc]
      refine List.pairwise_cons.mpr ⟨?_, h⟩
      intro c hc'
      rcases List.mem_cons.mp hc' with h1 | h2
      · rw [h1]; exact hc
      · exact le_trans hc (hb c h2)
    · simp only [insertStr, if_neg hc]
      refine List.pairwise_cons.mpr ⟨?_, ih hrest⟩
      intro c hc'
      have hc'' : c ∈ a :: rest := (insertStr_perm a rest).subset hc'
      rcases List.mem_cons.mp hc'' with h1 | h2
      · rw [h1]; exact le_of_not_le hc
      · exact hb c h2

theorem insertionSortStr_sorted (l : List String) :
    (insertionSortStr l).Sorted (· ≤ ·) := by
  induction l with
  | nil => simp [insertionSortStr, List.Sorted]
  | cons a rest ih => exact insertStr_sorted a _ ih

theorem insertionSortStr_eq_of_perm {l1 l2 : List String} (h : l1.Perm l2) :
    insertionSortStr l1 = insertionSortStr l2 :=
  List.eq_of_perm_of_sorted
    ((insertionSortStr_perm l1).trans (h.trans (insertionSortStr_perm l2).symm))
    (insertionSortStr_sorted l1) (insertionSortStr_sorted l2)

/-- The sorted enumeration of a finite set of strings. -/
def sortedMembers (s : Finset String) : List String :=
  Quot.liftOn s.val insertionSortStr fun _ _ h => insertionSortStr_eq_of_perm h

/-- A freshly discovered pending entry (lines 114–122).  Python's
`list(stats['sources'])` enumerates a set in unspecified order; the
embedding determinizes it as the sorted enumeration. -/
def mkPendingEntry (pid : String) (s : ProgramStats) (now : String) :
    PendingEntry :=
  { programId := pid, count := s.count
    sources := sortedMembers s.sources
    sample_tx := s.sample_tx, solscan_url := solscanUrl pid
    status := "pending_review", detected_at := now }

/-- `existing_programs` (lines 107–108): keys of `programs` together with
the `programId`s of `pending_review`. -/
def existingIds (reg : Registry) : List String :=
  reg.programs.map Prod.fst ++ reg.pending_review.map (fun p => p.programId)

/-- `registry['programs'][pid]['count'] = stats['count']` (line 126):
overwrite the count stored under a key of the programs mapping. -/
def setProgramCount (ps : List (String × ProgramEntry)) (pid : String)
    (c : Nat) : List (String × ProgramEntry) :=
  ps.map (fun e => if e.1 = pid then (e.1, { e.2 with count := c }) else e)

/-- Lines 129–132: walk `pending_review`, set the count of the first entry
whose `programId` matches, then `break`. -/
def updateFirstPending : List PendingEntry → String → Nat → List PendingEntry
  | [], _, _ => []
  | p :: rest, pid, c =>
    if p.programId = pid then { p with count := c } :: rest
    else p :: updateFirstPending rest pid c

/-- The body of the `for pid, stats in program_stats.items()` loop
(lines 112–132), threading the registry being mutated and the
`new_programs` list being built. -/
def reconStep (existing : List String) (now : String)
    (st : Registry × List PendingEntry) (e : String × ProgramStats) :
    Registry × List PendingEntry :=
  if e.1 ∈ existing then
    if e.1 ∈ st.1.programs.map Prod.fst then
      ({ st.1 with programs := setProgramCount st.1.programs e.1 e.2.count },
        st.2)
    else
      ({ st.1 with
          pending_review := updateFirstPending st.1.pending_review e.1 e.2.count },
        st.2)
  else
    (st.1, st.2 ++ [mkPendingEntry e.1 e.2 now])

/-- Stable insertion (descending by `count`): the inserted element goes
after every element with a strictly larger count and before equals coming
from later positions, matching Python's stable
`sort(key=count, reverse=True)`. -/
def insertDesc (p : PendingEntry) : List PendingEntry → List PendingEntry
  | [] => [p]
  | q :: rest =>
    if q.count ≤ p.count then p :: q :: rest else q :: insertDesc p rest

/-- Stable sort of `pending_review` by `count` descending (line 137).
Stable sorts by the same key agree, so this insertion sort computes the
same list as Python's Timsort. -/
def sortPendingDesc : List PendingEntry → List PendingEntry
  | [] => []
  | p :: rest => insertDesc p (sortPendingDesc rest)

/-- The whole loop over `program_stats.items()` (lines 111–132). -/
def runReconcile (reg : Registry) (stats : List (String × ProgramStats))
    (now : String) : Registry × List PendingEntry :=
  stats.foldl (reconStep (existingIds reg) now) (reg, [])

/-- Lines 134–146: extend-and-sort `pending_review` when new programs were
found, then recompute the metadata fields. -/
def finalizeRegistry (stats : List (String × ProgramStats))
    (now today : String) (res : Registry × List PendingEntry) : Registry :=
  let reg2 := if res.2.isEmpty then res.1
    else { res.1 with
            pending_review := sortPendingDesc (res.1.pending_review ++ res.2) }
  { reg2 with
    version := today
    last_updated := now
    total_programs := stats.length
    verified_count := reg2.programs.length
    pending_count := reg2.pending_review.length }

/-- `update_registry` (lines 95–154).  The missing-registry-file check
(lines 99–101, `sys.exit(1)`) is the `Except.error 1` path; the `Except.ok`
payload models the persisted document and the returned
`len(new_programs)`. -/
def update_registry (registryFile : Option Registry)
    (stats : List (String × ProgramStats)) (now today : String) :
    Except Nat (Nat × Registry) :=
  match registryFile with
  | none => Except.error 1
  | some registry =>
    Except.ok ((runReconcile registry stats now).2.length,
      finalizeRegistry stats now today (runReconcile registry stats now))

/-- The registry document written back to disk, when any: the write on
lines 149–150 happens only after the existence check passed. -/
def persisted_registry (r : Except Nat (Nat × Registry)) : Option Registry :=
  match r with
  | Except.ok x => some x.2
  | Except.error _ => none

/-- `main` (lines 217–219) invokes the notifier iff `new_count > 0`. -/
def notification_sent (new_count : Nat) : Bool :=
  decide (0 < new_count)

/-- Pending list of the persisted registry (empty when nothing persisted). -/
def pendingAfter (r : Except Nat (Nat × Registry)) : List PendingEntry :=
  match r with
  | Except.ok x => x.2.pending_review
  | Except.error _ => []

/-- Returned `new_count`, when the run did not abort. -/
def newCountOf (r : Except Nat (Nat × Registry)) : Option Nat :=
  match r with
  | Except.ok x => some x.1
  | Except.error _ => none

/-- C8: when the registry file does not exist, the run aborts with the
non-zero outcome 1 and no registry document is ever persisted. -/
theorem missing_registry_fatal (stats : List (String × ProgramStats))
    (now today : String) :
    update_registry none stats now today = Except.error 1 ∧
      (1 : Nat) ≠ 0 ∧
      persisted_registry (update_registry none stats now today) = none :=
  ⟨rfl, one_ne_zero, rfl⟩

theorem insertDesc_perm (p : PendingEntry) (l : List PendingEntry) :
    (insertDesc p l).Perm (p :: l) := by
  induction l with
  | nil => exact List.Perm.refl _
  | cons q rest ih =>
    by_cases h : q.count ≤ p.count
    · simp only [insertDesc, if_pos h]
      exact List.Perm.refl _
    · simp only [insertDesc, if_neg h]
      exact (ih.cons q).trans (List.Perm.swap p q rest)

theorem sortPendingDesc_perm (l : List PendingEntry) :
    (sortPendingDesc l).Perm l := by
  induction l with
  | nil => exact List.Perm.refl _
  | cons p rest ih =>
    exact (insertDesc_perm p (sortPendingDesc rest)).trans (ih.cons p)

theorem insertDesc_sorted (p : PendingEntry) (l : List PendingEntry)
    (h : l.Pairwise (fun a b => b.count ≤ a.count)) :
    (insertDesc p l).Pairwise (fun a b => b.count ≤ a.count) := by
  induction l with
  | nil => simp [insertDesc]
  | cons q rest ih =>
    rcases List.pairwise_cons.mp h with ⟨hq, hrest⟩
    by_cases hc : q.count ≤ p.count
    · simp only [insertDesc, if_pos hc]
      refine List.pairwise_cons.mpr ⟨?_, h⟩
      intro b hb
      rcases List.mem_cons.mp hb with h1 | h2
      · rw [h1]; exact hc
      · exact le_trans (hq b h2) hc
    · simp only [insertDesc, if_neg hc]
      refine List.pairwise_cons.mpr ⟨?_, ih hrest⟩
      intro b hb
      have hb' : b ∈ p :: rest := (insertDesc_perm p rest).subset hb
      rcases List.mem_cons.mp hb' with h1 | h2
      · rw [h1]; omega
      · exact hq b h2

theorem sortPendingDesc_sorted (l : List PendingEntry) :
    (sortPendingDesc l).Pairwise (fun a b => b.count ≤ a.count) := by
  induction l with
  | nil => simp [sortPendingDesc]
  | cons p rest ih => exact insertDesc_sorted p _ ih

/-- C1 (amended): after a reconciliation run that discovered at least one
new identifier, the whole `pending_review` list is sorted by `count`
descending.  (A run that discovers none skips the sort, so counts updated
in step 3 can leave the list unsorted — see the counterexample.) -/
theorem pending_sorted_after_new_run (reg : Registry)
    (stats : List (String × ProgramStats)) (now today : String) (n : Nat)
    (reg' : Registry)
    (h : update_registry (some reg) stats now today = Except.ok (n, reg'))
    (hn : 0 < n) :
    reg'.pending_review.Pairwise (fun a b => b.count ≤ a.count) := by
  simp only [update_registry, Except.ok.injEq, Prod.mk.injEq] at h
  obtain ⟨hn', hr'⟩ := h
  have hne : ¬ ((runReconcile reg stats now).2.isEmpty = true) := by
    intro hemp
    rw [List.isEmpty_iff] at hemp
    rw [hemp] at hn'
    simp at hn'
    omega
  rw [← hr']
  simp only [finalizeRegistry, if_neg hne]
  exact sortPendingDesc_sorted _

def sNew20 : ProgramStats :=
  { count := 20, sources := ∅, types := ∅, sample_tx := none
    first_seen := none, last_seen := none }

def pendB9 : PendingEntry :=
  { programId := "B", count := 9, sources := [], sample_tx := none
    solscan_url := "https://solscan.io/account/B"
    status := "pending_review", detected_at := "E" }

def pendA5 : PendingEntry :=
  { programId := "A", count := 5, sources := [], sample_tx := none
    solscan_url := "https://solscan.io/account/A"
    status := "pending_review", detected_at := "E" }

def regC1 : Registry :=
  { programs := [], pending_review := [pendB9, pendA5]
    version := "v", last_updated := "u"
    total_programs := 2, verified_count := 0, pending_count := 2 }

/-- Counterexample to C1 as stated: a run that discovers no new identifier
but refreshes the count of a pending entry (A: 5 → 20) skips the
`if new_programs:` sort, leaving `pending_review = [B(9), A(20)]`
unsorted. -/
theorem pending_sort_skipped_cex :
    newCountOf (update_registry (some regC1) [("A", sNew20)] "N" "D") =
        some 0 ∧
      ¬ (pendingAfter (update_registry (some regC1) [("A", sNew20)] "N" "D")).Pairwise
          (fun a b => b.count ≤ a.count) :=
  ⟨by decide, by decide⟩

def regEmptyW : Registry :=
  { programs := [], pending_review := []
    version := "v", last_updated := "u"
    total_programs := 0, verified_count := 0, pending_count := 0 }

def sNewW : ProgramStats :=
  { count := 3, sources := ∅, types := ∅, sample_tx := none
    first_seen := some 1, last_seen := some 2 }

def pendPW : PendingEntry :=
  { programId := "P", count := 3, sources := [], sample_tx := none
    solscan_url := "https://solscan.io/account/P"
    status := "pending_review", detected_at := "N" }

def regAfterW : Registry :=
  { programs := [], pending_review := [pendPW]
    version := "D", last_updated := "N"
    total_programs := 1, verified_count := 0, pending_count := 1 }

/-- Witness for C1 (amended): a run discovering one new program leaves
`pending_review` sorted. -/
theorem pending_sorted_after_new_run_w :
    update_registry (some regEmptyW) [("P", sNewW)] "N" "D" =
        Except.ok (1, regAfterW) ∧
      0 < 1 ∧
      regAfterW.pending_review.Pairwise (fun a b => b.count ≤ a.count) :=
  ⟨by rfl, by decide,
    pending_sorted_after_new_run regEmptyW [("P", sNewW)] "N" "D" 1 regAfterW
      (by rfl) (by decide)⟩

/-- First-match lookup in the aggregated association list (dict lookup). -/
def lookupKey : List (String × ProgramStats) → String → Option ProgramStats
  | [], _ => none
  | e :: rest, pid => if e.1 = pid then some e.2 else lookupKey rest pid

theorem lookupKey_eq_none (stats : List (String × ProgramStats)) (pid : String)
    (h : pid ∉ stats.map Prod.fst) : lookupKey stats pid = none := by
  induction stats with
  | nil => rfl
  | cons e rest ih =>
    simp only [List.map_cons, List.mem_cons, not_or] at h
    have hne : ¬ e.1 = pid := fun he => h.1 he.symm
    simp only [lookupKey, if_neg hne]
    exact ih h.2

theorem lookupKey_eq_some_of_mem (stats : List (String × ProgramStats))
    (pid : String) (s : ProgramStats) (hnd : (stats.map Prod.fst).Nodup)
    (hmem : (pid, s) ∈ stats) : lookupKey stats pid = some s := by
  induction stats with
  | nil => cases hmem
  | cons e rest ih =>
    simp only [List.map_cons, List.nodup_cons] at hnd
    rcases List.mem_cons.mp hmem with h1 | h2
    · rw [← h1]
      simp [lookupKey]
    · have hne : ¬ e.1 = pid := by
        intro he
        exact hnd.1 (he ▸ List.mem_map.mpr ⟨(pid, s), h2, rfl⟩)
      simp only [lookupKey, if_neg hne]
      exact ih hnd.2 h2

/-- The cumulative effect of the reconcile loop on one `programs` entry. -/
def progUpdateFun (stats : List (String × ProgramStats)) (ex : List String)
    (e : String × ProgramEntry) : String × ProgramEntry :=
  match lookupKey stats e.1 with
  | some s => if e.1 ∈ ex then (e.1, { e.2 with count := s.count }) else e
  | none => e

/-- The cumulative effect of the reconcile loop on one pending entry
(`known` is the key set of the `programs` mapping, which the loop never
changes). -/
def pendUpdateFun (stats : List (String × ProgramStats)) (ex known : List String)
    (p : PendingEntry) : PendingEntry :=
  match lookupKey stats p.programId with
  | some s =>
    if p.programId ∈ ex ∧ p.programId ∉ known then { p with count := s.count }
    else p
  | none => p

theorem setProgramCount_keys (ps : List (String × ProgramEntry)) (pid : String)
    (c : Nat) : (setProgramCount ps pid c).map Prod.fst = ps.map Prod.fst := by
  simp only [setProgramCount, List.map_map]
  apply List.map_congr_left
  intro e _
  by_cases h : e.1 = pid <;> simp [Function.comp, h]

theorem updateFirstPending_ids (l : List PendingEntry) (pid : String) (c : Nat) :
    (updateFirstPending l pid c).map (fun p => p.programId) =
      l.map (fun p => p.programId) := by
  induction l with
  | nil => rfl
  | cons q rest ih =>
    by_cases h : q.programId = pid <;> simp [updateFirstPending, h, ih]

theorem updateFirstPending_eq_map (l : List PendingEntry) (pid : String)
    (c : Nat) (hnd : (l.map (fun p => p.programId)).Nodup) :
    updateFirstPending l pid c =
      l.map (fun p => if p.programId = pid then { p with count := c } else p) := by
  induction l with
  | nil => rfl
  | cons q rest ih =>
    simp only [List.map_cons, List.nodup_cons] at hnd
    by_cases h : q.programId = pid
    · simp only [updateFirstPending, if_pos h, List.map_cons, if_pos h]
      congr 1
      have hrest : ∀ p ∈ rest,
          (if p.programId = pid then { p with count := c } else p) = p := by
        intro p hp
        rw [if_neg]
        intro hpp
        exact hnd.1 (h ▸ hpp ▸ List.mem_map.mpr ⟨p, hp, rfl⟩)
      rw [List.map_congr_left hrest, List.map_id']
    · simp only [updateFirstPending, if_neg h, List.map_cons, if_neg h]
      rw [ih hnd.2]

theorem updateFirstPending_fix (l : List PendingEntry) (pid : String) (c : Nat)
    (h : ∀ q ∈ l, q.programId = pid → q.count = c) :
    updateFirstPending l pid c = l := by
  induction l with
  | nil => rfl
  | cons q rest ih =>
    by_cases hq : q.programId = pid
    · simp only [updateFirstPending, if_pos hq]
      have hc := h q (List.mem_cons_self _ _) hq
      rw [← hc]
    · simp only [updateFirstPending, if_neg hq]
      rw [ih (fun q' hq' => h q' (List.mem_cons_of_mem _ hq'))]

theorem setProgramCount_fix (ps : List (String × ProgramEntry)) (pid : String)
    (c : Nat) (h : ∀ e ∈ ps, e.1 = pid → e.2.count = c) :
    setProgramCount ps pid c = ps := by
  simp only [setProgramCount]
  have hps : ∀ e ∈ ps,
      (if e.1 = pid then (e.1, { e.2 with count := c }) else e) = e := by
    intro e he
    by_cases hk : e.1 = pid
    · rw [if_pos hk, ← h e he hk]
    · rw [if_neg hk]
  rw [List.map_congr_left hps, List.map_id']

theorem runFold_new (ex : List String) (now : String)
    (stats : List (String × ProgramStats)) :
    ∀ st : Registry × List PendingEntry,
      (stats.foldl (reconStep ex now) st).2 =
        st.2 ++ (stats.filter (fun e => decide (e.1 ∉ ex))).map
          (fun e => mkPendingEntry e.1 e.2 now) := by
  induction stats with
  | nil => intro st; simp
  | cons e rest ih =>
    intro st
    by_cases h1 : e.1 ∈ ex
    · have hsnd : (reconStep ex now st e).2 = st.2 := by
        by_cases h2 : e.1 ∈ st.1.programs.map Prod.fst <;>
          simp [reconStep, h1, h2]
      simp only [List.foldl_cons, ih, hsnd, List.filter_cons]
      simp [h1]
    · simp only [List.foldl_cons, ih, List.filter_cons]
      simp [reconStep, h1, List.append_assoc]

theorem runFold_keys (ex : List String) (now : String)
    (stats : List (String × ProgramStats)) :
    ∀ st : Registry × List PendingEntry,
      ((stats.foldl (reconStep ex now) st).1).programs.map Prod.fst =
          st.1.programs.map Prod.fst ∧
        ((stats.foldl (reconStep ex now) st).1).pending_review.map
            (fun p => p.programId) =
          st.1.pending_review.map (fun p => p.programId) := by
  induction stats with
  | nil => intro st; exact ⟨rfl, rfl⟩
  | cons e rest ih =>
    intro st
    have hstep :
        ((reconStep ex now st e).1).programs.map Prod.fst =
            st.1.programs.map Prod.fst ∧
          ((reconStep ex now st e).1).pending_review.map (fun p => p.programId) =
            st.1.pending_review.map (fun p => p.programId) := by
      by_cases h1 : e.1 ∈ ex
      · by_cases h2 : e.1 ∈ st.1.programs.map Prod.fst
        · exact ⟨by simp [reconStep, h1, h2, setProgramCount_keys],
            by simp [reconStep, h1, h2]⟩
        · exact ⟨by simp [reconStep, h1, h2],
            by simp [reconStep, h1, h2, updateFirstPending_ids]⟩
      · exact ⟨by simp [reconStep, h1], by simp [reconStep, h1]⟩
    rcases ih (reconStep ex now st e) with ⟨ihp, ihq⟩
    exact ⟨by rw [List.foldl_cons, ihp, hstep.1],
      by rw [List.foldl_cons, ihq, hstep.2]⟩

theorem progUpdateFun_none (stats : List (String × ProgramStats))
    (ex : List String) (e : String × ProgramEntry)
    (h : lookupKey stats e.1 = none) : progUpdateFun stats ex e = e := by
  simp [progUpdateFun, h]

theorem progUpdateFun_cons_ne (es : String × ProgramStats)
    (rest : List (String × ProgramStats)) (ex : List String)
    (e : String × ProgramEntry) (hne : ¬ es.1 = e.1) :
    progUpdateFun (es :: rest) ex e = progUpdateFun rest ex e := by
  simp only [progUpdateFun, lookupKey, if_neg hne]

theorem progUpdateFun_cons_eq (es : String × ProgramStats)
    (rest : List (String × ProgramStats)) (ex : List String)
    (e : String × ProgramEntry) (hk : es.1 = e.1) :
    progUpdateFun (es :: rest) ex e =
      if e.1 ∈ ex then (e.1, { e.2 with count := es.2.count }) else e := by
  simp only [progUpdateFun, lookupKey, if_pos hk]

theorem pendUpdateFun_none (stats : List (String × ProgramStats))
    (ex known : List String) (p : PendingEntry)
    (h : lookupKey stats p.programId = none) :
    pendUpdateFun stats ex known p = p := by
  simp [pendUpdateFun, h]

theorem pendUpdateFun_cons_ne (es : String × ProgramStats)
    (rest : List (String × ProgramStats)) (ex known : List String)
    (p : PendingEntry) (hne : ¬ es.1 = p.programId) :
    pendUpdateFun (es :: rest) ex known p = pendUpdateFun rest ex known p := by
  simp only [pendUpdateFun, lookupKey, if_neg hne]

theorem pendUpdateFun_cons_eq (es : String × ProgramStats)
    (rest : List (String × ProgramStats)) (ex known : List String)
    (p : PendingEntry) (hk : es.1 = p.programId) :
    pendUpdateFun (es :: rest) ex known p =
      if p.programId ∈ ex ∧ p.programId ∉ known
      then { p with count := es.2.count } else p := by
  simp only [pendUpdateFun, lookupKey, if_pos hk]

theorem runFold_programs (ex : List String) (now : String)
    (stats : List (String × ProgramStats))
    (hnd : (stats.map Prod.fst).Nodup) :
    ∀ st : Registry × List PendingEntry,
      ((stats.foldl (reconStep ex now) st).1).programs =
        st.1.programs.map (progUpdateFun stats ex) := by
  induction stats with
  | nil =>
    intro st
    have hid : ∀ e ∈ st.1.programs, progUpdateFun [] ex e = e := fun e _ => rfl
    simp only [List.foldl_nil]
    rw [List.map_congr_left hid, List.map_id']
  | cons es rest ih =>
    intro st
    simp only [List.map_cons, List.nodup_cons] at hnd
    obtain ⟨hni, hndr⟩ := hnd
    have hnone : lookupKey rest es.1 = none := lookupKey_eq_none rest es.1 hni
    simp only [List.foldl_cons]
    rw [ih hndr]
    by_cases h1 : es.1 ∈ ex
    · by_cases h2 : es.1 ∈ st.1.programs.map Prod.fst
      · simp only [reconStep, if_pos h1, if_pos h2, setProgramCount,
          List.map_map]
        apply List.map_congr_left
        intro e _
        by_cases hk : e.1 = es.1
        · have hex : e.1 ∈ ex := hk ▸ h1
          simp only [Function.comp, if_pos hk]
          rw [progUpdateFun_cons_eq es rest ex e hk.symm, if_pos hex]
          rw [progUpdateFun_none rest ex _
            (by show lookupKey rest e.1 = none; rw [hk]; exact hnone)]
        · have hne : ¬ es.1 = e.1 := fun h => hk h.symm
          simp only [Function.comp, if_neg hk]
          rw [progUpdateFun_cons_ne es rest ex e hne]
      · simp only [reconStep, if_pos h1, if_neg h2]
        apply List.map_congr_left
        intro e he
        have hne : ¬ es.1 = e.1 :=
          fun h => h2 (h ▸ List.mem_map.mpr ⟨e, he, rfl⟩)
        rw [progUpdateFun_cons_ne es rest ex e hne]
    · simp only [reconStep, if_neg h1]
      apply List.map_congr_left
      intro e _
      by_cases hk : e.1 = es.1
      · have hnex : e.1 ∉ ex := hk ▸ h1
        rw [progUpdateFun_cons_eq es rest ex e hk.symm, if_neg hnex,
          progUpdateFun_none rest ex e (by rw [hk]; exact hnone)]
      · have hne : ¬ es.1 = e.1 := fun h => hk h.symm
        rw [progUpdateFun_cons_ne es rest ex e hne]

theorem runFold_pending (ex : List String) (now : String)
    (stats : List (String × ProgramStats))
    (hnd : (stats.map Prod.fst).Nodup) :
    ∀ st : Registry × List PendingEntry,
      (st.1.pending_review.map (fun p => p.programId)).Nodup →
      ((stats.foldl (reconStep ex now) st).1).pending_review =
        st.1.pending_review.map
          (pendUpdateFun stats ex (st.1.programs.map Prod.fst)) := by
  induction stats with
  | nil =>
    intro st _
    have hid : ∀ p ∈ st.1.pending_review,
        pendUpdateFun [] ex (st.1.programs.map Prod.fst) p = p := fun p _ => rfl
    simp only [List.foldl_nil]
    rw [List.map_congr_left hid, List.map_id']
  | cons es rest ih =>
    intro st hpnd
    simp only [List.map_cons, List.nodup_cons] at hnd
    obtain ⟨hni, hndr⟩ := hnd
    have hnone : lookupKey rest es.1 = none := lookupKey_eq_none rest es.1 hni
    simp only [List.foldl_cons]
    by_cases h1 : es.1 ∈ ex
    · by_cases h2 : es.1 ∈ st.1.programs.map Prod.fst
      · rw [ih hndr _ (by simpa [reconStep, if_pos h1, if_pos h2] using hpnd)]
        simp only [reconStep, if_pos h1, if_pos h2, setProgramCount_keys]
        apply List.map_congr_left
        intro p _
        by_cases hk : p.programId = es.1
        · rw [pendUpdateFun_cons_eq es rest ex _ p hk.symm, if_neg
            (fun hc => (hk ▸ hc.2 : es.1 ∉ _) h2),
            pendUpdateFun_none rest ex _ p (by rw [hk]; exact hnone)]
        · have hne : ¬ es.1 = p.programId := fun h => hk h.symm
          rw [pendUpdateFun_cons_ne es rest ex _ p hne]
      · rw [ih hndr _ (by
          simp only [reconStep, if_pos h1, if_neg h2, updateFirstPending_ids]
          exact hpnd)]
        simp only [reconStep, if_pos h1, if_neg h2]
        rw [updateFirstPending_eq_map _ _ _ hpnd, List.map_map]
        apply List.map_congr_left
        intro p _
        by_cases hk : p.programId = es.1
        · have hq : ({ p with count := es.2.count } : PendingEntry).programId =
              p.programId := rfl
          simp only [Function.comp, if_pos hk]
          rw [pendUpdateFun_cons_eq es rest ex _ p hk.symm,
            if_pos ⟨hk ▸ h1, hk ▸ h2⟩,
            pendUpdateFun_none rest ex _ _ (by rw [hq, hk]; exact hnone)]
        · have hne : ¬ es.1 = p.programId := fun h => hk h.symm
          simp only [Function.comp, if_neg hk]
          rw [pendUpdateFun_cons_ne es rest ex _ p hne]
    · rw [ih hndr _ (by simpa [reconStep, if_neg h1] using hpnd)]
      simp only [reconStep, if_neg h1]
      apply List.map_congr_left
      intro p _
      by_cases hk : p.programId = es.1
      · rw [pendUpdateFun_cons_eq es rest ex _ p hk.symm,
          if_neg (fun hc => (hk ▸ hc.1 : es.1 ∈ ex) |> h1),
          pendUpdateFun_none rest ex _ p (by rw [hk]; exact hnone)]
      · have hne : ¬ es.1 = p.programId := fun h => hk h.symm
        rw [pendUpdateFun_cons_ne es rest ex _ p hne]

theorem progUpdateFun_fst (stats : List (String × ProgramStats))
    (ex : List String) (e : String × ProgramEntry) :
    (progUpdateFun stats ex e).1 = e.1 := by
  simp only [progUpdateFun]
  cases hc : lookupKey stats e.1 with
  | none => rfl
  | some s => by_cases h : e.1 ∈ ex <;> simp [h]

/-- First-match count lookup in the `programs` mapping. -/
def progCount : List (String × ProgramEntry) → String → Option Nat
  | [], _ => none
  | e :: rest, pid => if e.1 = pid then some e.2.count else progCount rest pid

theorem progCount_map_update (ps : List (String × ProgramEntry))
    (stats : List (String × ProgramStats)) (ex : List String)
    (pid : String) (s : ProgramStats)
    (hl : lookupKey stats pid = some s) (hex : pid ∈ ex)
    (hmem : pid ∈ ps.map Prod.fst) :
    progCount (ps.map (progUpdateFun stats ex)) pid = some s.count := by
  induction ps with
  | nil => simp at hmem
  | cons e rest ih =>
    by_cases hk : e.1 = pid
    · have hupd : progUpdateFun stats ex e = (e.1, { e.2 with count := s.count }) := by
        have hle : lookupKey stats e.1 = some s := by rw [hk]; exact hl
        have hee : e.1 ∈ ex := by rw [hk]; exact hex
        simp [progUpdateFun, hle, hee]
      simp only [List.map_cons, progCount, hupd, if_pos hk]
    · simp only [List.map_cons, progCount]
      rw [if_neg (by rw [progUpdateFun_fst]; exact hk)]
      apply ih
      simp only [List.map_cons, List.mem_cons] at hmem
      rcases hmem with h | h
      · exact absurd h.symm hk
      · exact h

/-- C6: for an identifier present both in the aggregate and in the
registry's `programs` mapping, reconciliation replaces that entry's count
with the freshly aggregated count (full overwrite, not an increment); and
when every aggregated identifier is already known, `new_count` is 0 and no
notification is sent. -/
theorem known_program_count_overwrite (reg : Registry)
    (stats : List (String × ProgramStats)) (now today : String)
    (pid : String) (s : ProgramStats)
    (hnd : (stats.map Prod.fst).Nodup)
    (hmem : (pid, s) ∈ stats)
    (hprog : pid ∈ reg.programs.map Prod.fst) :
    ∃ n reg', update_registry (some reg) stats now today = Except.ok (n, reg') ∧
      progCount reg'.programs pid = some s.count ∧
      ((∀ q ∈ stats.map Prod.fst, q ∈ existingIds reg) →
        n = 0 ∧ notification_sent n = false) := by
  refine ⟨(runReconcile reg stats now).2.length,
    finalizeRegistry stats now today (runReconcile reg stats now), rfl, ?_, ?_⟩
  · have hprogs :
        (finalizeRegistry stats now today (runReconcile reg stats now)).programs
          = ((runReconcile reg stats now).1).programs := by
      simp only [finalizeRegistry]
      by_cases he : (runReconcile reg stats now).2.isEmpty <;> simp [he]
    rw [hprogs, runReconcile, runFold_programs _ _ _ hnd]
    exact progCount_map_update _ _ _ pid s
      (lookupKey_eq_some_of_mem stats pid s hnd hmem)
      (List.mem_append_left _ hprog) hprog
  · intro hall
    have hfilter :
        stats.filter (fun e => decide (e.1 ∉ existingIds reg)) = [] := by
      rw [List.filter_eq_nil_iff]
      intro e he
      simp only [decide_eq_true_eq, not_not]
      exact hall e.1 (List.mem_map.mpr ⟨e, he, rfl⟩)
    have hempty : (runReconcile reg stats now).2 = [] := by
      rw [runReconcile, runFold_new, hfilter]
      simp
    rw [hempty]
    exact ⟨rfl, rfl⟩

def progEntry5 : ProgramEntry := { count := 5, meta := [] }

def regKnownW : Registry :=
  { programs := [("P1", progEntry5)], pending_review := []
    version := "v", last_updated := "u"
    total_programs := 1, verified_count := 1, pending_count := 0 }

def stats40 : ProgramStats :=
  { count := 40, sources := ∅, types := ∅, sample_tx := none
    first_seen := none, last_seen := none }

/-- Witness for C6: `programs = [P1 ↦ count 5]`, aggregated count 40 —
count becomes 40 (not 45), `new_count = 0`, no notification. -/
theorem known_program_count_overwrite_w :
    ([("P1", stats40)].map Prod.fst).Nodup ∧
      ("P1", stats40) ∈ [("P1", stats40)] ∧
      "P1" ∈ regKnownW.programs.map Prod.fst ∧
      (∃ n reg',
        update_registry (some regKnownW) [("P1", stats40)] "N" "D" =
            Except.ok (n, reg') ∧
          progCount reg'.programs "P1" = some stats40.count ∧
          ((∀ q ∈ [("P1", stats40)].map Prod.fst, q ∈ existingIds regKnownW) →
            n = 0 ∧ notification_sent n = false)) :=
  ⟨by decide, by decide, by decide,
    known_program_count_overwrite regKnownW [("P1", stats40)] "N" "D" "P1"
      stats40 (by decide) (by decide) (by decide)⟩

theorem updateFirstPending_split (l1 l2 : List PendingEntry) (p : PendingEntry)
    (pid : String) (c : Nat) (hp : p.programId = pid)
    (hl1 : ∀ q ∈ l1, q.programId ≠ pid) :
    updateFirstPending (l1 ++ p :: l2) pid c =
      l1 ++ { p with count := c } :: l2 := by
  induction l1 with
  | nil => simp [updateFirstPending, hp]
  | cons q rest ih =>
    have hq : ¬ q.programId = pid := hl1 q (List.mem_cons_self _ _)
    simp only [List.cons_append, updateFirstPending, if_neg hq]
    exact congrArg (List.cons q) (ih (fun q' h => hl1 q' (List.mem_cons_of_mem _ h)))

/-- C9: when the loaded `pending_review` holds duplicate entries for an
aggregated identifier (absent from `programs`), reconciliation updates the
count of only the first matching entry; later duplicates and every other
field of the updated entry are left unchanged. -/
theorem pending_dup_first_only (reg : Registry) (s : ProgramStats)
    (now today : String) (pid : String) (l1 l2 : List PendingEntry)
    (p : PendingEntry)
    (hsplit : reg.pending_review = l1 ++ p :: l2)
    (hp : p.programId = pid)
    (hl1 : ∀ q ∈ l1, q.programId ≠ pid)
    (hprog : pid ∉ reg.programs.map Prod.fst) :
    ∃ reg', update_registry (some reg) [(pid, s)] now today =
        Except.ok (0, reg') ∧
      reg'.pending_review = l1 ++ { p with count := s.count } :: l2 := by
  have hex : pid ∈ existingIds reg := by
    apply List.mem_append_right
    rw [hsplit]
    exact List.mem_map.mpr ⟨p, by simp, hp⟩
  have hfold : runReconcile reg [(pid, s)] now =
      ({ reg with
          pending_review := updateFirstPending reg.pending_review pid s.count },
        []) := by
    simp [runReconcile, reconStep, hex, hprog]
  refine ⟨finalizeRegistry [(pid, s)] now today (runReconcile reg [(pid, s)] now),
    ?_, ?_⟩
  · show Except.ok ((runReconcile reg [(pid, s)] now).2.length, _) = _
    rw [hfold]
    rfl
  · rw [hfold]
    simp only [finalizeRegistry, List.isEmpty_nil, if_pos]
    rw [hsplit, updateFirstPending_split l1 l2 p pid s.count hp hl1]

def pDupFirst : PendingEntry :=
  { programId := "A", count := 5, sources := [], sample_tx := none
    solscan_url := "https://solscan.io/account/A"
    status := "pending_review", detected_at := "E1" }

def pDupSecond : PendingEntry :=
  { programId := "A", count := 7, sources := [], sample_tx := none
    solscan_url := "https://solscan.io/account/A"
    status := "pending_review", detected_at := "E2" }

def regDupW : Registry :=
  { programs := [], pending_review := [pDupFirst, pDupSecond]
    version := "v", last_updated := "u"
    total_programs := 2, verified_count := 0, pending_count := 2 }

def stats11 : ProgramStats :=
  { count := 11, sources := ∅, types := ∅, sample_tx := none
    first_seen := none, last_seen := none }

/-- Witness for C9: duplicated pending id `A`; only the first entry's
count is updated, the second stays at 7. -/
theorem pending_dup_first_only_w :
    regDupW.pending_review = [] ++ pDupFirst :: [pDupSecond] ∧
      pDupFirst.programId = "A" ∧
      "A" ∉ regDupW.programs.map Prod.fst ∧
      (∃ reg', update_registry (some regDupW) [("A", stats11)] "N" "D" =
          Except.ok (0, reg') ∧
        reg'.pending_review =
          [] ++ { pDupFirst with count := stats11.count } :: [pDupSecond]) :=
  ⟨by decide, by decide, by decide,
    pending_dup_first_only regDupW stats11 "N" "D" "A" [] [pDupSecond]
      pDupFirst (by decide) (by decide) (by simp) (by decide)⟩

theorem foldl_fixed {α β : Type} (f : β → α → β) (a : β) (l : List α)
    (h : ∀ x ∈ l, f a x = a) : l.foldl f a = a := by
  induction l with
  | nil => rfl
  | cons x rest ih =>
    rw [List.foldl_cons, h x (List.mem_cons_self _ _)]
    exact ih (fun y hy => h y (List.mem_cons_of_mem _ hy))

theorem finalize_programs (stats : List (String × ProgramStats))
    (now today : String) (res : Registry × List PendingEntry) :
    (finalizeRegistry stats now today res).programs = res.1.programs := by
  simp only [finalizeRegistry]
  by_cases he : res.2.isEmpty <;> simp [he]

theorem finalize_pending (stats : List (String × ProgramStats))
    (now today : String) (res : Registry × List PendingEntry) :
    (finalizeRegistry stats now today res).pending_review =
      if res.2.isEmpty then res.1.pending_review
      else sortPendingDesc (res.1.pending_review ++ res.2) := by
  simp only [finalizeRegistry]
  by_cases he : res.2.isEmpty <;> simp [he]

theorem finalize_verified (stats : List (String × ProgramStats))
    (now today : String) (res : Registry × List PendingEntry) :
    (finalizeRegistry stats now today res).verified_count =
      (finalizeRegistry stats now today res).programs.length := by
  simp only [finalizeRegistry]

theorem finalize_pending_count (stats : List (String × ProgramStats))
    (now today : String) (res : Registry × List PendingEntry) :
    (finalizeRegistry stats now today res).pending_count =
      (finalizeRegistry stats now today res).pending_review.length := by
  simp only [finalizeRegistry]

theorem finalize_pending_perm (stats : List (String × ProgramStats))
    (now today : String) (res : Registry × List PendingEntry) :
    ((finalizeRegistry stats now today res).pending_review).Perm
      (res.1.pending_review ++ res.2) := by
  rw [finalize_pending]
  by_cases he : res.2.isEmpty
  · rw [if_pos he, List.isEmpty_iff.mp he, List.append_nil]
  · rw [if_neg he]
    exact sortPendingDesc_perm _

theorem pendUpdateFun_keeps_id (stats : List (String × ProgramStats))
    (ex known : List String) (p : PendingEntry) :
    (pendUpdateFun stats ex known p).programId = p.programId := by
  simp only [pendUpdateFun]
  cases hc : lookupKey stats p.programId with
  | none => rfl
  | some s =>
    by_cases h : p.programId ∈ ex ∧ p.programId ∉ known <;> simp [h]

theorem pendUpdateFun_app (stats : List (String × ProgramStats))
    (ex known : List String) (p : PendingEntry) (s : ProgramStats)
    (hlk : lookupKey stats p.programId = some s)
    (hcond : p.programId ∈ ex ∧ p.programId ∉ known) :
    pendUpdateFun stats ex known p = { p with count := s.count } := by
  simp [pendUpdateFun, hlk, hcond]

theorem progUpdateFun_app (stats : List (String × ProgramStats))
    (ex : List String) (e : String × ProgramEntry) (s : ProgramStats)
    (hlk : lookupKey stats e.1 = some s) (hex : e.1 ∈ ex) :
    progUpdateFun stats ex e = (e.1, { e.2 with count := s.count }) := by
  simp [progUpdateFun, hlk, hex]

/-- C7: reconciliation is idempotent: a second run with the same
aggregated mapping returns zero newly discovered identifiers and leaves
the whole `programs` mapping, the whole `pending_review` list,
`verified_count` and `pending_count` unchanged.  The registry is assumed
well-formed (no duplicated `programId` inside `pending_review`), an
invariant the reconciler itself maintains. -/
theorem reconcile_idempotent (reg0 : Registry)
    (stats : List (String × ProgramStats)) (now1 today1 now2 today2 : String)
    (n1 : Nat) (reg1 : Registry)
    (hnd : (stats.map Prod.fst).Nodup)
    (hpnd : (reg0.pending_review.map (fun p => p.programId)).Nodup)
    (h1 : update_registry (some reg0) stats now1 today1 =
      Except.ok (n1, reg1)) :
    ∃ reg2, update_registry (some reg1) stats now2 today2 =
        Except.ok (0, reg2) ∧
      reg2.programs = reg1.programs ∧
      reg2.pending_review = reg1.pending_review ∧
      reg2.verified_count = reg1.verified_count ∧
      reg2.pending_count = reg1.pending_count := by
  simp only [update_registry, Except.ok.injEq, Prod.mk.injEq] at h1
  obtain ⟨-, hreg1⟩ := h1
  have hprogs : reg1.programs =
      reg0.programs.map (progUpdateFun stats (existingIds reg0)) := by
    rw [← hreg1, finalize_programs]
    exact runFold_programs _ _ _ hnd (reg0, [])
  have hpend_res : (runReconcile reg0 stats now1).1.pending_review =
      reg0.pending_review.map
        (pendUpdateFun stats (existingIds reg0) (reg0.programs.map Prod.fst)) :=
    runFold_pending _ _ _ hnd (reg0, []) hpnd
  have hnew : (runReconcile reg0 stats now1).2 =
      (stats.filter (fun e => decide (e.1 ∉ existingIds reg0))).map
        (fun e => mkPendingEntry e.1 e.2 now1) := by
    have h := runFold_new (existingIds reg0) now1 stats (reg0, [])
    simpa using h
  have hperm : reg1.pending_review.Perm
      ((runReconcile reg0 stats now1).1.pending_review ++
        (runReconcile reg0 stats now1).2) := by
    rw [← hreg1]
    exact finalize_pending_perm _ _ _ _
  have hkeys1 : reg1.programs.map Prod.fst = reg0.programs.map Prod.fst := by
    rw [← hreg1, finalize_programs]
    exact (runFold_keys (existingIds reg0) now1 stats (reg0, [])).1
  have hv1 : reg1.verified_count = reg1.programs.length := by
    rw [← hreg1]
    exact finalize_verified _ _ _ _
  have hp1 : reg1.pending_count = reg1.pending_review.length := by
    rw [← hreg1]
    exact finalize_pending_count _ _ _ _
  have hlk : ∀ e ∈ stats, lookupKey stats e.1 = some e.2 :=
    fun e he => lookupKey_eq_some_of_mem stats e.1 e.2 hnd he
  have hF1 : ∀ e ∈ stats, e.1 ∈ existingIds reg1 := by
    intro e he
    by_cases hm : e.1 ∈ existingIds reg0
    · rcases List.mem_append.mp hm with hl | hr
      · apply List.mem_append_left
        rw [hkeys1]
        exact hl
      · apply List.mem_append_right
        have hmem2 : e.1 ∈
            ((runReconcile reg0 stats now1).1.pending_review ++
              (runReconcile reg0 stats now1).2).map (fun p => p.programId) := by
          rw [List.map_append]
          apply List.mem_append_left
          simp only [runReconcile]
          rw [(runFold_keys (existingIds reg0) now1 stats (reg0, [])).2]
          exact hr
        exact ((hperm.map (fun p => p.programId)).mem_iff).mpr hmem2
    · apply List.mem_append_right
      have hfil : e ∈ stats.filter (fun e => decide (e.1 ∉ existingIds reg0)) :=
        List.mem_filter.mpr ⟨he, by simpa using hm⟩
      have hmem1 : e.1 ∈
          ((runReconcile reg0 stats now1).2).map (fun p => p.programId) := by
        rw [hnew, List.map_map]
        exact List.mem_map.mpr ⟨e, hfil, rfl⟩
      have hmem2 : e.1 ∈
          ((runReconcile reg0 stats now1).1.pending_review ++
            (runReconcile reg0 stats now1).2).map (fun p => p.programId) := by
        rw [List.map_append]
        exact List.mem_append_right _ hmem1
      exact ((hperm.map (fun p => p.programId)).mem_iff).mpr hmem2
  have hF2 : ∀ e ∈ stats, e.1 ∈ reg1.programs.map Prod.fst →
      ∀ q ∈ reg1.programs, q.1 = e.1 → q.2.count = e.2.count := by
    intro e he _ q hq hqe
    rw [hprogs] at hq
    rcases List.mem_map.mp hq with ⟨q0, hq0, hq0e⟩
    have hq0fst : q0.1 = e.1 := by
      rw [← hqe, ← hq0e, progUpdateFun_fst]
    have hex : q0.1 ∈ existingIds reg0 :=
      List.mem_append_left _ (List.mem_map.mpr ⟨q0, hq0, rfl⟩)
    have happ : progUpdateFun stats (existingIds reg0) q0 =
        (q0.1, { q0.2 with count := e.2.count }) :=
      progUpdateFun_app _ _ q0 e.2 (by rw [hq0fst]; exact hlk e he) hex
    rw [← hq0e, happ]
  have hF3 : ∀ e ∈ stats, e.1 ∉ reg1.programs.map Prod.fst →
      ∀ q ∈ reg1.pending_review, q.programId = e.1 → q.count = e.2.count := by
    intro e he hk q hq hqe
    have hknot0 : e.1 ∉ reg0.programs.map Prod.fst := by
      rw [← hkeys1]
      exact hk
    have hq' : q ∈ (runReconcile reg0 stats now1).1.pending_review ++
        (runReconcile reg0 stats now1).2 := hperm.subset hq
    rcases List.mem_append.mp hq' with hql | hqr
    · rw [hpend_res] at hql
      rcases List.mem_map.mp hql with ⟨q0, hq0, hq0e⟩
      have hq0id : q0.programId = e.1 := by
        rw [← hqe, ← hq0e, pendUpdateFun_keeps_id]
      have hexq : q0.programId ∈ existingIds reg0 :=
        List.mem_append_right _ (List.mem_map.mpr ⟨q0, hq0, rfl⟩)
      have happ := pendUpdateFun_app stats (existingIds reg0)
        (reg0.programs.map Prod.fst) q0 e.2
        (by rw [hq0id]; exact hlk e he)
        ⟨hexq, by rw [hq0id]; exact hknot0⟩
      rw [← hq0e, happ]
    · rw [hnew] at hqr
      rcases List.mem_map.mp hqr with ⟨f, hf, hfq⟩
      have hfs : f ∈ stats := List.mem_of_mem_filter hf
      have hfid : f.1 = e.1 := by
        rw [← hfq] at hqe
        exact hqe
      have hsame : e.2 = f.2 := by
        have hlf := hlk f hfs
        rw [hfid] at hlf
        exact Option.some.inj ((hlk e he).symm.trans hlf)
      rw [← hfq]
      show f.2.count = e.2.count
      rw [← hsame]
  have hstep : ∀ e ∈ stats,
      reconStep (existingIds reg1) now2 (reg1, []) e = (reg1, []) := by
    intro e he
    have hex1 : e.1 ∈ existingIds reg1 := hF1 e he
    simp only [reconStep, if_pos hex1]
    by_cases hk : e.1 ∈ reg1.programs.map Prod.fst
    · rw [if_pos hk, setProgramCount_fix _ _ _ (hF2 e he hk)]
    · rw [if_neg hk, updateFirstPending_fix _ _ _ (hF3 e he hk)]
  have hrun2 : runReconcile reg1 stats now2 = (reg1, []) := by
    simp only [runReconcile]
    exact foldl_fixed _ _ _ hstep
  refine ⟨finalizeRegistry stats now2 today2 (reg1, []), ?_, ?_, ?_, ?_, ?_⟩
  · show Except.ok ((runReconcile reg1 stats now2).2.length,
      finalizeRegistry stats now2 today2 (runReconcile reg1 stats now2)) = _
    rw [hrun2]
    rfl
  · rw [finalize_programs]
  · rw [finalize_pending]
    simp
  · rw [finalize_verified, finalize_programs, hv1]
  · rw [finalize_pending_count, finalize_pending, hp1]
    simp

def entryK2 : ProgramEntry := { count := 2, meta := [] }

def pendQ1 : PendingEntry :=
  { programId := "Q", count := 1, sources := [], sample_tx := none
    solscan_url := "https://solscan.io/account/Q"
    status := "pending_review", detected_at := "E0" }

def regIdemW : Registry :=
  { programs := [("K", entryK2)], pending_review := [pendQ1]
    version := "v0", last_updated := "u0"
    total_programs := 2, verified_count := 1, pending_count := 1 }

def statsIdemK : ProgramStats :=
  { count := 9, sources := ∅, types := ∅, sample_tx := none
    first_seen := none, last_seen := none }

def statsIdemQ : ProgramStats :=
  { count := 4, sources := ∅, types := ∅, sample_tx := none
    first_seen := none, last_seen := none }

def statsIdemN : ProgramStats :=
  { count := 6, sources := ∅, types := ∅, sample_tx := none
    first_seen := none, last_seen := none }

def statsIdemW : List (String × ProgramStats) :=
  [("K", statsIdemK), ("Q", statsIdemQ), ("N", statsIdemN)]

def pendN6 : PendingEntry :=
  { programId := "N", count := 6, sources := [], sample_tx := none
    solscan_url := "https://solscan.io/account/N"
    status := "pending_review", detected_at := "N1" }

def regIdem1W : Registry :=
  { programs := [("K", { count := 9, meta := [] })]
    pending_review := [pendN6, { pendQ1 with count := 4 }]
    version := "D1", last_updated := "N1"
    total_programs := 3, verified_count := 1, pending_count := 2 }

/-- Witness for C7: one known-verified, one known-pending and one new
program; the second run changes nothing and reports zero new programs. -/
theorem reconcile_idempotent_w :
    (statsIdemW.map Prod.fst).Nodup ∧
      (regIdemW.pending_review.map (fun p => p.programId)).Nodup ∧
      update_registry (some regIdemW) statsIdemW "N1" "D1" =
        Except.ok (1, regIdem1W) ∧
      (∃ reg2, update_registry (some regIdem1W) statsIdemW "N2" "D2" =
          Except.ok (0, reg2) ∧
        reg2.programs = regIdem1W.programs ∧
        reg2.pending_review = regIdem1W.pending_review ∧
        reg2.verified_count = regIdem1W.verified_count ∧
        reg2.pending_count = regIdem1W.pending_count) :=
  ⟨by decide, by decide, by rfl,
    reconcile_idempotent regIdemW statsIdemW "N1" "D1" "N2" "D2" 1 regIdem1W
      (by decide) (by decide) (by rfl)⟩

end ProgramRegistry
